import Mathlib

/-!
Shallow embedding of `src/script/pytagtime.py` (class `TagTimeLog` and helpers).

Modelling conventions:
* Python floats are modelled as `ℚ` where the code only performs field
  arithmetic on finite values, and as `ℝ` where `np.exp` is involved
  (the Gaussian smoothing weights).
* `datetime.datetime.fromtimestamp` produces a local wall-clock datetime;
  a datetime is modelled as its epoch-second value (a `ℚ`, since smoothing
  offsets produce sub-second instants), and the local-time conversion is an
  additive offset `tz` (seconds east of UTC) carried in the configuration.
* `np.random.uniform` jitter is modelled as an arbitrary function
  `jitter : ℕ → ℚ` giving the per-element perturbation.
* Exceptions (`ValueError` from `int(...)`) are modelled with `Except`.
-/

namespace PyTagTime

/-! ### Line cleaning, mirroring lines 112-117 of `_parse_file`

`line1 = re.sub(r'\s*\[.*?\]', '', line0)` removes every bracketed
annotation together with the whitespace run directly before it; the
non-greedy body stops at the first `]`, and `.` does not cross a newline.
`line2 = re.sub(r'\s*\+', '', line1)` removes every `+` together with the
whitespace run directly before it.  `line3 = line2.strip()`. -/

/-- Scan for the first `]` (the end of a non-greedy `\[.*?\]` match);
`.` does not match a newline, so a newline aborts the match. -/
def findClose : List Char → Option (List Char)
  | [] => none
  | c :: rest =>
    if c = ']' then some rest
    else if c = '\n' then none
    else findClose rest

/-- Accumulator-based scan implementing `re.sub(r'\s*\[.*?\]', '', line)`:
when a `[` with a matching `]` is found, the bracketed part and the
whitespace run immediately before it (the front of the reversed
accumulator) are dropped.  The fuel argument makes the recursion
structural; every step consumes at least one input character, so any fuel
above the input length is enough and the fuel-exhausted branch is dead. -/
def raGo : ℕ → List Char → List Char → List Char
  | 0, acc, cs => acc.reverse ++ cs
  | _ + 1, acc, [] => acc.reverse
  | f + 1, acc, c :: rest =>
    if c = '[' then
      match findClose rest with
      | some rest2 => raGo f (acc.dropWhile Char.isWhitespace) rest2
      | none => raGo f ('[' :: acc) rest
    else raGo f (c :: acc) rest

def stripBrackets (cs : List Char) : List Char := raGo (cs.length + 1) [] cs

/-- Accumulator-based scan implementing `re.sub(r'\s*\+', '', line)`. -/
def rpGo (acc : List Char) : List Char → List Char
  | [] => acc.reverse
  | c :: rest =>
    if c = '+' then rpGo (acc.dropWhile Char.isWhitespace) rest
    else rpGo (c :: acc) rest

def stripPluses (cs : List Char) : List Char := rpGo [] cs

def trimL (cs : List Char) : List Char := cs.dropWhile Char.isWhitespace

/-- Python `str.strip()`. -/
def trimChars (cs : List Char) : List Char := trimL ((trimL cs.reverse).reverse)

/-- The cleaned line `line3` of `_parse_file`. -/
def cleanLine (cs : List Char) : List Char := trimChars (stripPluses (stripBrackets cs))

/-- `re.split(r'\s+', s)` on an already-stripped string: on the empty
string it yields a single empty field, otherwise the whitespace-separated
tokens. -/
def splitWSAux (cur : List Char) : List Char → List (List Char)
  | [] => [cur.reverse]
  | c :: rest =>
    if c.isWhitespace then cur.reverse :: splitWSAux [] rest
    else splitWSAux (c :: cur) rest

def splitWS (cs : List Char) : List (List Char) :=
  if cs.isEmpty then [[]] else (splitWSAux [] cs).filter (fun t => ¬ t.isEmpty)

/-- Value of a nonempty all-digit character list. -/
def digitsVal (cs : List Char) : Option ℕ :=
  if cs.isEmpty then none
  else if cs.all Char.isDigit then
    some (cs.foldl (fun n c => 10 * n + (c.toNat - ('0').toNat)) 0)
  else none

/-- Python 2 `int(s)`: optional surrounding whitespace, optional sign,
then a nonempty digit string; anything else raises `ValueError` (`none`). -/
def pythonInt (cs : List Char) : Option ℤ :=
  match trimChars cs with
  | '-' :: rest => (digitsVal rest).map (fun n => -(n : ℤ))
  | '+' :: rest => (digitsVal rest).map (fun n => (n : ℤ))
  | other => (digitsVal other).map (fun n => (n : ℤ))

/-- Lines 112-121 of `_parse_file`: clean the line, split into fields,
parse `fields[0]` with `int(...)` (a `ValueError` aborts the whole run),
and return the epoch second together with the tag fields. -/
def parsePing (cs : List Char) : Except String (ℤ × List String) :=
  let fields := splitWS (cleanLine cs)
  match pythonInt (fields.headD []) with
  | none => .error "ValueError"
  | some n => .ok (n, (fields.drop 1).map (fun t => String.mk t))


/-! ### Calendar model

A datetime is its epoch-second value (`ℚ`); local wall-clock fields are
read off after adding the timezone offset `tz` (seconds). -/

/-- Computable floor of a rational, agreeing with `Int.floor`. -/
def qfloor (q : ℚ) : ℤ := Rat.floor q


/-- Computable ceiling of a rational, agreeing with `Int.ceil`. -/
def qceil (q : ℚ) : ℤ := -qfloor (-q)


inductive Multitag where
  | first
  | split
  | double
deriving DecidableEq

/-- The configuration fields of `TagTimeLog.__init__` that the parse and
aggregation paths read, plus the timezone offset implicit in
`datetime.fromtimestamp`. -/
structure Config where
  interval : ℚ
  multitag : Multitag
  skiptags : List String
  skipweekdays : List ℤ
  includehours : ℤ × ℤ
  dropdays : List ℤ
  maptags : List (String × String)
  tz : ℤ

/-- `datetime.date()` of the local datetime at epoch second `t`:
days since 1970-01-01 (local). -/
def dateOf (cfg : Config) (t : ℚ) : ℤ := qfloor ((t + cfg.tz) / 86400)

/-- `datetime.hour` of the local datetime at epoch second `t`. -/
def hourOf (cfg : Config) (t : ℚ) : ℤ := (qfloor ((t + cfg.tz) / 3600)).emod 24

/-- `datetime.weekday()` (Monday = 0) of the local datetime at epoch
second `t`; 1970-01-01 was a Thursday (weekday 3). -/
def weekdayOf (cfg : Config) (t : ℚ) : ℤ := (dateOf cfg t + 3).emod 7

/-! ### Tag resolution, mirroring lines 124-137 of `_parse_file` -/

/-- Lexicographic comparison of char lists by codepoint (the order
`np.unique` sorts strings by). -/
def charListLt : List Char → List Char → Bool
  | [], [] => false
  | [], _ :: _ => true
  | _ :: _, [] => false
  | a :: as, b :: bs =>
    if a.toNat < b.toNat then true
    else if b.toNat < a.toNat then false
    else charListLt as bs

def strLt (a b : String) : Bool := charListLt a.data b.data

/-- Stable insertion into an ascending-sorted list. -/
def insertAsc (x : String) : List String → List String
  | [] => [x]
  | y :: ys => if strLt x y then x :: y :: ys else y :: insertAsc x ys

/-- `np.unique`: the sorted list of distinct values. -/
def npUnique (l : List String) : List String :=
  (l.dedup).foldr insertAsc []


/-- One remap lookup: `self.maptags[tag]` when present, else the tag. -/
def remapOne (m : List (String × String)) (t : String) : String :=
  match m.lookup t with
  | some d => d
  | none => t

/-- Lines 127-134 of `_parse_file`, kept faithful to the source's
indentation: the loop only rebinds the variable `tag`, and the membership
test and append run once, after the loop, so only the (remapped) last tag
survives.  (On an empty tag list the source raises `NameError`; that case
is modelled as the empty result and is never reached below.) -/
def applyMaptags (m : List (String × String)) (tags : List String) : List String :=
  match tags with
  | [] => []
  | _ =>
    let tag := tags.foldl (fun _ t => remapOne m t) ""
    let tags2 : List String := []
    if tag ∈ tags2 then tags2 else tags2 ++ [tag]

/-- Lines 124-137: drop excluded tags, `np.unique`, the remap block
(guarded by the truthiness of `self.maptags`, i.e. a nonempty dict), then
the `first` policy truncation. -/
def resolveTags (cfg : Config) (tags0 : List String) : List String :=
  let tags1 := tags0.filter (fun t => ¬ t ∈ cfg.skiptags)
  let tags2 := npUnique tags1
  let tags3 := if cfg.maptags.isEmpty then tags2 else applyMaptags cfg.maptags tags2
  if cfg.multitag = Multitag.first then tags3.take 1 else tags3

/-! ### Sample generation and the store, lines 139-161 of `_parse_file`

The smoothing kernel is passed in as a list of `(weight, offset)` pairs —
the order `zip(weights, offsetlist)` produces; weights are kept rational
here (the real-valued Gaussian kernel is treated separately below). -/

/-- Lines 144-150: the per-copy calendar filter on the shifted timestamp
`dtx`, in the source's two-`continue` shape. -/
def copyKept (cfg : Config) (dtx : ℚ) : Bool :=
  if weekdayOf cfg dtx ∈ cfg.skipweekdays then false
  else if hourOf cfg dtx < cfg.includehours.1 ∨ hourOf cfg dtx ≥ cfg.includehours.2 then false
  else true

/-- The shifted timestamp `dtx = dt + datetime.timedelta(hours=offset * interval)`. -/
def shiftTs (cfg : Config) (ts offset : ℚ) : ℚ := ts + offset * cfg.interval * 3600

/-- Lines 144-152 for one resolved tag: each surviving smoothed copy
contributes the sample `(dtx, weight * duration)`. -/
def pingSamplesForTag (cfg : Config) (kernel : List (ℚ × ℚ)) (ts dur : ℚ) :
    List (ℚ × ℚ) :=
  kernel.filterMap (fun wo =>
    if copyKept cfg (shiftTs cfg ts wo.2) then some (shiftTs cfg ts wo.2, wo.1 * dur)
    else none)

/-- Lines 112-152 for one log line: parse, skip the whole ping when its
(unshifted) date is in `dropdays`, resolve tags, and emit weighted
samples; `split` divides the base interval by the resolved tag count. -/
def processLine (cfg : Config) (kernel : List (ℚ × ℚ)) (cs : List Char) :
    Except String (List (String × ℚ × ℚ)) :=
  match parsePing cs with
  | .error e => .error e
  | .ok (n, rawTags) =>
    let ts : ℚ := (n : ℚ)
    if dateOf cfg ts ∈ cfg.dropdays then .ok []
    else
      let tags := resolveTags cfg rawTags
      .ok (tags.flatMap (fun t =>
        let dur := if cfg.multitag = Multitag.split then cfg.interval / (tags.length : ℚ)
                   else cfg.interval
        (pingSamplesForTag cfg kernel ts dur).map (fun s => (t, s))))

/-- `defaultdict(list)` accumulation: append to an existing tag's series,
or add the tag at the end on first sight. -/
def insertSample (st : List (String × List (ℚ × ℚ))) (t : String) (s : ℚ × ℚ) :
    List (String × List (ℚ × ℚ)) :=
  match st with
  | [] => [(t, [s])]
  | (k, l) :: rest => if k = t then (k, l ++ [s]) :: rest else (k, l) :: insertSample rest t s

/-- The line loop of `_parse_file`: process each line in order,
accumulating the per-tag store; the first `ValueError` aborts the run. -/
def loadRawAux (cfg : Config) (kernel : List (ℚ × ℚ)) :
    List (List Char) → List (String × List (ℚ × ℚ)) →
    Except String (List (String × List (ℚ × ℚ)))
  | [], st => .ok st
  | cs :: rest, st =>
    match processLine cfg kernel cs with
    | .error e => .error e
    | .ok samples => loadRawAux cfg kernel rest
        (samples.foldl (fun acc p => insertSample acc p.1 p.2) st)

/-- The raw per-tag store after the line loop (before pruning). -/
def loadRaw (cfg : Config) (kernel : List (ℚ × ℚ)) (lines : List (List Char)) :
    Except String (List (String × List (ℚ × ℚ))) :=
  loadRawAux cfg kernel lines []

/-- Lines 155-158: `if len(D[f]) <= 1: del D[f]` — tags with at most one
sample are removed. -/
def pruneStore (st : List (String × List (ℚ × ℚ))) : List (String × List (ℚ × ℚ)) :=
  st.filter (fun p => ¬ p.2.length ≤ 1)

/-- The store `self.D` as `_parse_file` leaves it. -/
def loadStore (cfg : Config) (kernel : List (ℚ × ℚ)) (lines : List (List Char)) :
    Except String (List (String × List (ℚ × ℚ))) :=
  (loadRaw cfg kernel lines).map pruneStore

/-! ### Hour-of-day aggregation (`hour_sums` bucketing with `sum`) -/

/-- The bucket key `resolution * (hour / resolution)` (Python 2 integer
division). -/
def hourBucket (cfg : Config) (res : ℤ) (t : ℚ) : ℤ := res * (hourOf cfg t / res)

/-- Sum the weights of the samples landing in each bucket, buckets in
first-appearance order. -/
def sumByBucket (key : ℚ → ℤ) (samples : List (ℚ × ℚ)) : List (ℤ × ℚ) :=
  samples.foldl (fun acc s =>
    let k := key s.1
    if acc.any (fun b => b.1 = k) then
      acc.map (fun b => if b.1 = k then (b.1, b.2 + s.2) else b)
    else acc ++ [(k, s.2)]) []

/-- Per-tag hour-of-day aggregation of a store with combine = sum. -/
def hourOfDayAggSum (cfg : Config) (res : ℤ) (st : List (String × List (ℚ × ℚ))) :
    List (String × List (ℤ × ℚ)) :=
  st.map (fun p => (p.1, sumByBucket (hourBucket cfg res) p.2))

/-! ### The smoothing kernel, lines 101-109 of `_parse_file`

`offsetlist = np.arange(-2*sigma, 2*sigma, (4*sigma+1)/15)` plus uniform
jitter when smoothing is on, `[0.]` otherwise; raw weights are
`exp(-offset**2 / sigma**2)`, then normalized by their sum.  The jitter is
an arbitrary per-index perturbation `jitter : ℕ → ℚ`; weights live in `ℝ`
because of `exp`.  (`np.arange` with step 0 — reached only at
`sigma = -1/4` — raises in numpy and is not modelled.) -/

/-- `np.arange start stop step` for a positive step: `start + i * step`
for `i < ⌈(stop - start) / step⌉`. -/
def arange (start stop step : ℚ) : List ℚ :=
  (List.range (qceil ((stop - start) / step)).toNat).map
    (fun (i : ℕ) => start + (i : ℚ) * step)

/-- Apply the per-index jitter `offsetlist += np.random.uniform(...)`. -/
def addJitter (jitter : ℕ → ℚ) (l : List ℚ) : List ℚ :=
  ((List.range l.length).zip l).map (fun p => p.2 + jitter p.1)

/-- The smoothed (or degenerate) offset list. -/
def kernelOffsets (smooth : Bool) (sigma : ℚ) (jitter : ℕ → ℚ) : List ℚ :=
  if smooth then addJitter jitter (arange (-2 * sigma) (2 * sigma) ((4 * sigma + 1) / 15))
  else [0]

/-- `np.exp(-offsetlist ** 2 / sigma ** 2)`. -/
noncomputable def rawWeights (smooth : Bool) (sigma : ℚ) (jitter : ℕ → ℚ) : List ℝ :=
  (kernelOffsets smooth sigma jitter).map
    (fun (o : ℚ) => Real.exp (-(o : ℝ) ^ 2 / (sigma : ℝ) ^ 2))

/-- `weights /= weights.sum()`. -/
noncomputable def kernelWeights (smooth : Bool) (sigma : ℚ) (jitter : ℕ → ℚ) : List ℝ :=
  (rawWeights smooth sigma jitter).map (fun w => w / (rawWeights smooth sigma jitter).sum)

/-- The kernel as `(offset, weight)` pairs. -/
noncomputable def kernelPairs (smooth : Bool) (sigma : ℚ) (jitter : ℕ → ℚ) :
    List (ℚ × ℝ) :=
  (kernelOffsets smooth sigma jitter).zip (kernelWeights smooth sigma jitter)

/-! ### The day normalizer, lines 89-91 of `__init__` -/

/-- `n_days = max(1, (self.D.index.max() - self.D.index.min()).days)`;
`day_normalizer = n_days - n_days * len(np.unique(skipweekdays)) / 7.`.
`tmin` and `tmax` are the epoch seconds of the index extremes. -/
def day_normalizer (tmin tmax : ℚ) (skipweekdays : List ℤ) : ℚ :=
  let n : ℤ := max 1 (qfloor ((tmax - tmin) / 86400))
  (n : ℚ) - (n : ℚ) * (skipweekdays.dedup.length : ℚ) / 7

/-- Modelled from the spec: "DayNormalizer: a scalar = (distinct calendar
days spanned) minus (that span times excluded-weekday fraction)" — the
count of distinct local calendar dates from the first to the last sample,
inclusive. -/
def specDayNormalizer (tz : ℤ) (tmin tmax : ℚ) (skipweekdays : List ℤ) : ℚ :=
  let span : ℤ := qfloor ((tmax + tz) / 86400) - qfloor ((tmin + tz) / 86400) + 1
  (span : ℚ) - (span : ℚ) * (skipweekdays.dedup.length : ℚ) / 7

/-! ### The ratio trend's division, lines 224-231 of `trend_ratio`

Bucketed EWMA values are IEEE floats; the division
`ewma[tags[0]] / ewma[tags[1]]` can produce `±inf` (nonzero / 0) or `nan`
(0 / 0), and `ratio.replace([np.inf, -np.inf], np.nan)` then maps the
infinities to `nan` (pandas' missing-data marker).  Finite values are
rationals; nonfinite inputs (a `nan` numerator from the EWMA warm-up)
propagate to `nan` here, which also matches the float semantics after the
`replace`. -/

inductive FVal where
  | fin : ℚ → FVal
  | pinf
  | ninf
  | nan
deriving DecidableEq

/-- Float division as `trend_ratio` uses it (finite denominators of
interest; any nonfinite operand yields a value that `replace` turns into
`nan`, so those cases are folded to `nan` directly). -/
def fdivVal : FVal → FVal → FVal
  | FVal.fin a, FVal.fin b =>
    if b = 0 then (if 0 < a then FVal.pinf else if a < 0 then FVal.ninf else FVal.nan)
    else FVal.fin (a / b)
  | _, _ => FVal.nan

/-- `ratio.replace([np.inf, -np.inf], np.nan)`. -/
def replaceInfNan : FVal → FVal
  | FVal.pinf => FVal.nan
  | FVal.ninf => FVal.nan
  | v => v

/-- One bucket of the ratio column. -/
def ratioVal (a b : FVal) : FVal := replaceInfNan (fdivVal a b)

/-- The whole ratio column, bucket by bucket. -/
def ratioSeries (nums dens : List FVal) : List FVal := List.zipWith ratioVal nums dens

/-! ### `top_n_tags`, lines 466-480

`self.D.sum()` gives each tag's total weight (`none` models a `NaN`
total); keys with `NaN` totals are dropped, the rest sorted by total,
descending and stable, the first `n` kept, and each requested extra tag
appended unless already present. -/

/-- Stable descending insertion by total. -/
def insertDesc (x : String × ℚ) : List (String × ℚ) → List (String × ℚ)
  | [] => [x]
  | y :: ys => if y.2 ≤ x.2 then x :: y :: ys else y :: insertDesc x ys

/-- `sorted(keys, key=lambda x: D[x], reverse=True)` restricted to
non-`NaN` totals, then `[:n]`. -/
def topBase (totals : List (String × Option ℚ)) (n : ℕ) : List String :=
  let keys := totals.filterMap (fun p => p.2.map (fun v => (p.1, v)))
  ((keys.foldr insertDesc []).map Prod.fst).take n

/-- Lines 466-480 of `top_n_tags` (with an extra-tag list supplied). -/
def top_n_tags (totals : List (String × Option ℚ)) (n : ℕ) (extra_tags : List String) :
    List String :=
  extra_tags.foldl (fun keys x => if x ∈ keys then keys else keys ++ [x]) (topBase totals n)

/-! ### Spec-shaped comparison definitions -/

/-- Modelled from the spec (§4.3 and claim C2): after exclusion, "each
remaining tag that appears in the remap table is independently
substituted by its mapped destination and the resulting set is
deduplicated", then the multitag policy is applied. -/
def specResolveTags (cfg : Config) (tags0 : List String) : List String :=
  let tags1 := tags0.filter (fun t => ¬ t ∈ cfg.skiptags)
  let tags2 := npUnique tags1
  let tags3 := if cfg.maptags.isEmpty then tags2
               else (tags2.map (remapOne cfg.maptags)).dedup
  if cfg.multitag = Multitag.first then tags3.take 1 else tags3

/-- Modelled from the spec (§4.4 and claim C3): a smoothed copy at shifted
timestamp `dtx` is accepted iff its own weekday, clock hour and calendar
date all pass the filters. -/
def specCopyAccepted (cfg : Config) (dtx : ℚ) : Bool :=
  decide (¬ weekdayOf cfg dtx ∈ cfg.skipweekdays) &&
  decide (cfg.includehours.1 ≤ hourOf cfg dtx) &&
  decide (hourOf cfg dtx < cfg.includehours.2) &&
  decide (¬ dateOf cfg dtx ∈ cfg.dropdays)

/-! ### Concrete configurations used by the claims -/

/-- Base interval 0.75 h, multitag `first`, smoothing disabled, no
exclusions, no remap, UTC. -/
def cfgC1 : Config :=
  { interval := 3 / 4, multitag := Multitag.first, skiptags := [], skipweekdays := [],
    includehours := (0, 24), dropdays := [], maptags := [], tz := 0 }

/-- The two-line log of claim C1. -/
def c1lines : List (List Char) := ["1000000000 work".data, "1000002700 rest".data]

/-- `cfgC1` with the remap table `work:meeting,prog`. -/
def cfgC2 : Config :=
  { cfgC1 with maptags := [("meeting", "work"), ("prog", "work")] }

/-- Base interval 1 h, no exclusions except the dropped calendar day 0
(1970-01-01), UTC. -/
def cfgC3 : Config :=
  { interval := 1, multitag := Multitag.first, skiptags := [], skipweekdays := [],
    includehours := (0, 24), dropdays := [0], maptags := [], tz := 0 }

/-! ## Claim theorems -/

/-! ### Bridges between the computable floor and ceiling and Mathlib -/

theorem qfloor_eq (q : ℚ) : qfloor q = ⌊q⌋ := by
  rw [qfloor, Rat.floor_def', ← Rat.floor_def]

theorem qceil_eq (q : ℚ) : qceil q = ⌈q⌉ := by
  rw [qceil, qfloor_eq, ← Int.ceil_neg, neg_neg]

/-- C1 (counterexample): on the log `1000000000 work` / `1000002700 rest`
with base interval 0.75 h, smoothing disabled (kernel `[(1, 0)]`), multitag
`first` and no exclusions, the loaded store is empty — each tag gets a
single weighted sample and `_parse_file` deletes every tag with at most
one sample — so hour-of-day aggregation with sum yields zero buckets, not
the claimed two buckets of weight 0.75. -/
theorem c1_counterexample :
    loadStore cfgC1 [(1, 0)] c1lines = Except.ok [] ∧
    (loadStore cfgC1 [(1, 0)] c1lines).map
      (fun st => (hourOfDayAggSum cfgC1 24 st).length) = Except.ok 0 :=
  ⟨by with_unfolding_all rfl, by with_unfolding_all rfl⟩

/-- C1 (amended): on that input each tag's series holds exactly one sample
of weight 0.75 before pruning, and the `len <= 1` pruning then removes
both tags, so the final store — and hence any aggregation over it — is
empty. -/
theorem c1_amended :
    loadRaw cfgC1 [(1, 0)] c1lines =
      Except.ok [("work", [(1000000000, 3 / 4)]), ("rest", [(1000002700, 3 / 4)])] ∧
    loadStore cfgC1 [(1, 0)] c1lines = Except.ok [] :=
  ⟨by with_unfolding_all rfl, by with_unfolding_all rfl⟩

/-- C2 (code evaluation at the failing input): under remap table
`work:meeting,prog`, a ping tagged only `meeting` does resolve to `work`,
but for a ping tagged `alpha meeting` the remap block only inspects the
variable left over from the last loop iteration, so the code returns
`[work]` where the claimed per-tag remapping would keep `{alpha, work}`
and the `first` policy would pick `alpha`. -/
theorem c2_remap_eval :
    resolveTags cfgC2 ["meeting"] = ["work"] ∧
    resolveTags cfgC2 ["alpha", "meeting"] = ["work"] ∧
    specResolveTags cfgC2 ["alpha", "meeting"] = ["alpha"] ∧
    ("work" : String) ≠ "alpha" := by
  refine ⟨by with_unfolding_all rfl, by with_unfolding_all rfl, by with_unfolding_all rfl, ?_⟩
  decide

/-- C3 (counterexample): the ping at 23:30 of the dropped day 0 is
discarded whole, including its smoothed copy shifted to 00:30 of day 1 —
a copy whose own weekday, hour and date all pass the filters, so the
claimed per-copy acceptance test says it should survive. -/
theorem c3_counterexample :
    processLine cfgC3 [(1, 1)] "84600 work".data = Except.ok [] ∧
    specCopyAccepted cfgC3 (shiftTs cfgC3 84600 1) = true :=
  ⟨by with_unfolding_all rfl, by with_unfolding_all decide⟩

/-- C6 (counterexample): a blank line is not skipped — `int('')` raises
`ValueError`, so the parse of the line (and the whole load pass) fails. -/
theorem c6_counterexample :
    parsePing "".data = Except.error "ValueError" ∧
    loadRaw cfgC1 [(1, 0)] ["1000000000 work".data, "".data, "1000002700 rest".data] =
      Except.error "ValueError" :=
  ⟨rfl, by with_unfolding_all rfl⟩

/-- C8 (counterexample): for a dataset spanning 36 hours from local
midnight (epoch seconds 0 to 129600 at UTC), the samples touch two
distinct calendar days, but the code computes
`max(1, floor(36h / 24h)) = 1`; with no excluded weekdays the normalizer
is 1 where the claimed "calendar days spanned" formula gives 2. -/
theorem c8_counterexample :
    day_normalizer 0 129600 [] = 1 ∧
    specDayNormalizer 0 0 129600 [] = 2 ∧
    (1 : ℚ) ≠ 2 := by
  refine ⟨by with_unfolding_all decide, by with_unfolding_all decide, by with_unfolding_all decide⟩

/-! ### Helper lemmas about the line cleaner (for C6) -/

theorem raGo_no_bracket (f : ℕ) :
    ∀ (cs acc : List Char), (∀ c ∈ cs, c ≠ '[') → raGo f acc cs = acc.reverse ++ cs := by
  induction f with
  | zero => intro cs acc _; rfl
  | succ f ih =>
    intro cs acc h
    cases cs with
    | nil => simp [raGo]
    | cons c rest =>
      have hc : c ≠ '[' := h c (by simp)
      have hrest : ∀ x ∈ rest, x ≠ '[' := fun x hx => h x (by simp [hx])
      simp only [raGo, if_neg hc]
      rw [ih rest (c :: acc) hrest]
      simp

theorem rpGo_no_plus :
    ∀ (cs acc : List Char), (∀ c ∈ cs, c ≠ '+') → rpGo acc cs = acc.reverse ++ cs := by
  intro cs
  induction cs with
  | nil => intro acc _; simp [rpGo]
  | cons c rest ih =>
    intro acc h
    have hc : c ≠ '+' := h c (by simp)
    have hrest : ∀ x ∈ rest, x ≠ '+' := fun x hx => h x (by simp [hx])
    simp only [rpGo, if_neg hc]
    rw [ih (c :: acc) hrest]
    simp

theorem dropWhile_of_all {p : Char → Bool} :
    ∀ (l : List Char), (∀ c ∈ l, p c = true) → l.dropWhile p = [] := by
  intro l
  induction l with
  | nil => intro _; rfl
  | cons c rest ih =>
    intro h
    simp only [List.dropWhile, h c (by simp)]
    exact ih (fun x hx => h x (by simp [hx]))

theorem trimChars_of_all_ws (cs : List Char) (h : ∀ c ∈ cs, c.isWhitespace = true) :
    trimChars cs = [] := by
  have h1 : trimL cs.reverse = [] :=
    dropWhile_of_all cs.reverse (fun c hc => h c (List.mem_reverse.mp hc))
  unfold trimChars
  rw [h1]
  rfl

theorem cleanLine_of_all_ws (cs : List Char) (h : ∀ c ∈ cs, c.isWhitespace = true) :
    cleanLine cs = [] := by
  have hb : ∀ c ∈ cs, c ≠ '[' := by
    intro c hc he; have := h c hc; rw [he] at this; simp at this
  have hp : ∀ c ∈ cs, c ≠ '+' := by
    intro c hc he; have := h c hc; rw [he] at this; simp at this
  have h1 : stripBrackets cs = cs := by
    simpa using raGo_no_bracket (cs.length + 1) cs [] hb
  have h2 : stripPluses cs = cs := by
    simpa using rpGo_no_plus cs [] hp
  rw [cleanLine, h1, h2]
  exact trimChars_of_all_ws cs h

/-- C6 (amended): for every blank or whitespace-only input line, the load
pass raises `ValueError` — `int` is applied to the empty first field — and
the run aborts; such lines are not silently skipped. -/
theorem c6_amended :
    ∀ (cfg : Config) (kernel : List (ℚ × ℚ)) (cs : List Char),
      (∀ c ∈ cs, c.isWhitespace = true) →
      processLine cfg kernel cs = Except.error "ValueError" := by
  intro cfg kernel cs h
  have hclean : cleanLine cs = [] := cleanLine_of_all_ws cs h
  have hparse : parsePing cs = Except.error "ValueError" := by
    unfold parsePing
    rw [hclean]
    rfl
  unfold processLine
  rw [hparse]

theorem c6_amended_witness :
    processLine cfgC1 [(1, 0)] "  ".data = Except.error "ValueError" :=
  c6_amended cfgC1 [(1, 0)] "  ".data (by decide)

/-- C3 (amended): the weekday filter and the `[startHour, endHour)` hour
window are applied to each smoothed copy's own shifted timestamp, and a
copy survives them iff its shifted weekday and hour pass; the excluded-day
filter, by contrast, is applied to the original ping timestamp and
discards the entire ping with all its copies. -/
theorem c3_amended :
    (∀ (cfg : Config) (dtx : ℚ), copyKept cfg dtx = true ↔
      (¬ weekdayOf cfg dtx ∈ cfg.skipweekdays ∧
       cfg.includehours.1 ≤ hourOf cfg dtx ∧ hourOf cfg dtx < cfg.includehours.2)) ∧
    (∀ (cfg : Config) (kernel : List (ℚ × ℚ)) (cs : List Char) (n : ℤ)
       (rawTags : List String),
      parsePing cs = Except.ok (n, rawTags) → dateOf cfg (n : ℚ) ∈ cfg.dropdays →
      processLine cfg kernel cs = Except.ok []) := by
  constructor
  · intro cfg dtx
    constructor
    · intro h
      by_cases h1 : weekdayOf cfg dtx ∈ cfg.skipweekdays
      · simp [copyKept, h1] at h
      · by_cases h2 : hourOf cfg dtx < cfg.includehours.1 ∨ hourOf cfg dtx ≥ cfg.includehours.2
        · simp [copyKept, h1, h2] at h
        · push_neg at h2
          exact ⟨h1, h2.1, h2.2⟩
    · rintro ⟨h1, h2, h3⟩
      have h4 : ¬ (hourOf cfg dtx < cfg.includehours.1 ∨ hourOf cfg dtx ≥ cfg.includehours.2) := by
        omega
      simp [copyKept, h1, h4]
  · intro cfg kernel cs n rawTags hp hd
    unfold processLine
    rw [hp]
    simp [hd]

theorem c3_amended_witness :
    processLine cfgC3 [(1, 1)] "84600 work".data = Except.ok [] :=
  c3_amended.2 cfgC3 [(1, 1)] "84600 work".data 84600 ["work"]
    (by with_unfolding_all rfl) (by with_unfolding_all decide)

/-! ### Helper lemmas about the store (for C4) -/

theorem lookup_mem {β : Type} :
    ∀ (ps : List (String × β)) (t : String) (b : β), ps.lookup t = some b → (t, b) ∈ ps := by
  intro ps
  induction ps with
  | nil => intro t b h; simp [List.lookup] at h
  | cons p rest ih =>
    obtain ⟨k, v⟩ := p
    intro t b h
    simp only [List.lookup] at h
    cases hbeq : t == k with
    | true =>
      simp only [hbeq] at h
      injection h with h2
      have ht : t = k := eq_of_beq hbeq
      subst ht
      subst h2
      exact List.mem_cons_self _ _
    | false =>
      simp only [hbeq] at h
      exact List.mem_cons_of_mem _ (ih t b h)

theorem insertSample_keys_sub (st : List (String × List (ℚ × ℚ))) (t : String) (s : ℚ × ℚ) :
    ∀ x ∈ (insertSample st t s).map Prod.fst, x ∈ st.map Prod.fst ∨ x = t := by
  induction st with
  | nil => intro x hx; simp [insertSample] at hx; right; exact hx
  | cons p rest ih =>
    intro x hx
    obtain ⟨k, l⟩ := p
    rw [insertSample] at hx
    by_cases hk : k = t
    · rw [if_pos hk] at hx
      simp at hx ⊢
      tauto
    · rw [if_neg hk] at hx
      simp at hx ⊢
      rcases hx with hx | hx
      · tauto
      · rcases ih x (by simpa using hx) with h | h
        · simp at h; tauto
        · tauto

theorem insertSample_keys_nodup (st : List (String × List (ℚ × ℚ))) (t : String) (s : ℚ × ℚ)
    (h : (st.map Prod.fst).Nodup) : ((insertSample st t s).map Prod.fst).Nodup := by
  induction st with
  | nil => simp [insertSample]
  | cons p rest ih =>
    obtain ⟨k, l⟩ := p
    rw [insertSample]
    by_cases hk : k = t
    · rw [if_pos hk]
      simpa using h
    · rw [if_neg hk]
      simp only [List.map_cons, List.nodup_cons] at h ⊢
      refine ⟨?_, ih h.2⟩
      intro hmem
      rcases insertSample_keys_sub rest t s k hmem with h2 | h2
      · exact h.1 h2
      · exact hk h2

theorem foldl_insert_keys_nodup (samples : List (String × ℚ × ℚ)) :
    ∀ (st : List (String × List (ℚ × ℚ))), (st.map Prod.fst).Nodup →
      ((samples.foldl (fun acc p => insertSample acc p.1 p.2) st).map Prod.fst).Nodup := by
  induction samples with
  | nil => intro st h; simpa using h
  | cons s rest ih =>
    intro st h
    rw [List.foldl_cons]
    exact ih _ (insertSample_keys_nodup st s.1 s.2 h)

theorem loadRawAux_keys_nodup (cfg : Config) (kernel : List (ℚ × ℚ)) :
    ∀ (lines : List (List Char)) (st0 st : List (String × List (ℚ × ℚ))),
      (st0.map Prod.fst).Nodup →
      loadRawAux cfg kernel lines st0 = Except.ok st →
      (st.map Prod.fst).Nodup := by
  intro lines
  induction lines with
  | nil =>
    intro st0 st h0 h
    rw [loadRawAux] at h
    injection h with h
    subst h
    exact h0
  | cons cs rest ih =>
    intro st0 st h0 h
    rw [loadRawAux] at h
    cases hp : processLine cfg kernel cs with
    | error e => rw [hp] at h; exact absurd h (by simp)
    | ok samples =>
      rw [hp] at h
      exact ih _ st (foldl_insert_keys_nodup samples st0 h0) h

theorem loadRaw_keys_nodup (cfg : Config) (kernel : List (ℚ × ℚ)) (lines : List (List Char))
    (st : List (String × List (ℚ × ℚ))) (h : loadRaw cfg kernel lines = Except.ok st) :
    (st.map Prod.fst).Nodup :=
  loadRawAux_keys_nodup cfg kernel lines [] st (by simp) h

theorem lookup_filter_none (p : String × List (ℚ × ℚ) → Bool) :
    ∀ (ps : List (String × List (ℚ × ℚ))) (t : String) (l : List (ℚ × ℚ)),
      (ps.map Prod.fst).Nodup → ps.lookup t = some l → p (t, l) = false →
      (ps.filter p).lookup t = none := by
  intro ps
  induction ps with
  | nil => intro t l _ h _; simp [List.lookup] at h
  | cons q rest ih =>
    intro t l hnd h hp
    obtain ⟨k, v⟩ := q
    simp only [List.map_cons, List.nodup_cons] at hnd
    simp only [List.lookup] at h
    cases hbeq : t == k with
    | true =>
      simp only [hbeq] at h
      injection h with hv
      have ht : t = k := eq_of_beq hbeq
      subst ht
      subst hv
      have hnotin : ∀ b, (t, b) ∉ rest := by
        intro b hb
        exact hnd.1 (by simpa using List.mem_map_of_mem Prod.fst hb)
      rw [List.filter_cons, hp]
      simp only [Bool.false_eq_true, if_false]
      cases hlk : (rest.filter p).lookup t with
      | none => rfl
      | some w =>
        exact absurd (List.mem_of_mem_filter (lookup_mem _ t w hlk)) (hnotin w)
    | false =>
      simp only [hbeq] at h
      rw [List.filter_cons]
      cases hq : p (k, v) with
      | false =>
        simp only [Bool.false_eq_true, if_false]
        exact ih t l hnd.2 h hp
      | true =>
        simp only [if_true]
        simp only [List.lookup, hbeq]
        exact ih t l hnd.2 h hp

/-- C4: after loading, every tag still present in the store has at least
two weighted samples, and any tag whose raw (pre-pruning) series had
fewer than two samples is absent from the store, hence invisible to every
later aggregation, trend or correlation pass (they all read `self.D`). -/
theorem c4_prune_invariant :
    ∀ (cfg : Config) (kernel : List (ℚ × ℚ)) (lines : List (List Char))
      (st : List (String × List (ℚ × ℚ))),
      loadStore cfg kernel lines = Except.ok st →
      (∀ t l, st.lookup t = some l → 2 ≤ l.length) ∧
      (∀ raw, loadRaw cfg kernel lines = Except.ok raw →
        ∀ t l, raw.lookup t = some l → l.length ≤ 1 → st.lookup t = none) := by
  intro cfg kernel lines st hst
  unfold loadStore at hst
  cases hraw : loadRaw cfg kernel lines with
  | error e => rw [hraw] at hst; simp [Except.map] at hst
  | ok raw0 =>
    rw [hraw] at hst
    simp only [Except.map] at hst
    injection hst with hst
    subst hst
    constructor
    · intro t l hl
      have hmem := lookup_mem _ t l hl
      have := List.of_mem_filter hmem
      simp at this
      omega
    · intro raw hraw2 t l hlu hlen
      injection hraw2 with hraw2
      subst hraw2
      refine lookup_filter_none _ raw0 t l (loadRaw_keys_nodup cfg kernel lines raw0 hraw) hlu ?_
      simp
      omega

theorem c4_prune_invariant_witness :
    List.lookup "rest" [("work", [((0 : ℚ), (3 / 4 : ℚ)), (3600, 3 / 4)])] = none :=
  (c4_prune_invariant cfgC1 [(1, 0)] ["0 work".data, "3600 work".data, "7200 rest".data]
      [("work", [(0, 3 / 4), (3600, 3 / 4)])] (by with_unfolding_all rfl)).2
    [("work", [(0, 3 / 4), (3600, 3 / 4)]), ("rest", [(7200, 3 / 4)])]
    (by with_unfolding_all rfl) "rest" [(7200, 3 / 4)] (by with_unfolding_all rfl)
    (by norm_num)

/-! ### Helper lemmas about the smoothing kernel (for C5 and C10) -/

theorem addJitter_length (jitter : ℕ → ℚ) (l : List ℚ) :
    (addJitter jitter l).length = l.length := by
  simp [addJitter]

theorem arange_length (start stop step : ℚ) :
    (arange start stop step).length = (qceil ((stop - start) / step)).toNat := by
  simp [arange]

theorem kernelOffsets_smooth_ne_nil (sigma : ℚ) (jitter : ℕ → ℚ) (h : 0 < sigma) :
    kernelOffsets true sigma jitter ≠ [] := by
  have harg : 0 < (2 * sigma - -2 * sigma) / ((4 * sigma + 1) / 15) := by
    apply div_pos
    · linarith
    · apply div_pos
      · linarith
      · norm_num
  have hceil : 0 < qceil ((2 * sigma - -2 * sigma) / ((4 * sigma + 1) / 15)) := by
    rw [qceil_eq]
    exact Int.ceil_pos.mpr harg
  have hlen : 0 < (kernelOffsets true sigma jitter).length := by
    rw [kernelOffsets, if_pos rfl, addJitter_length, arange_length]
    omega
  exact List.length_pos.mp hlen

theorem rawWeights_pos (smooth : Bool) (sigma : ℚ) (jitter : ℕ → ℚ) :
    ∀ w ∈ rawWeights smooth sigma jitter, 0 < w := by
  intro w hw
  simp only [rawWeights, List.mem_map] at hw
  obtain ⟨o, _, rfl⟩ := hw
  exact Real.exp_pos _

theorem rawWeights_sum_pos (sigma : ℚ) (jitter : ℕ → ℚ) (h : 0 < sigma) :
    0 < (rawWeights true sigma jitter).sum := by
  apply List.sum_pos _ (rawWeights_pos true sigma jitter)
  intro hnil
  apply kernelOffsets_smooth_ne_nil sigma jitter h
  rw [rawWeights] at hnil
  exact List.map_eq_nil_iff.mp hnil

theorem sum_map_div (l : List ℝ) (b : ℝ) :
    (l.map (fun x => x / b)).sum = l.sum / b := by
  induction l with
  | nil => simp
  | cons x rest ih => simp [ih, add_div]

/-- C5 (counterexample): with smoothing enabled and `sigma = 0`, the
offset list `np.arange(0, 0, 1/15)` is empty, so the weight list is empty
and its sum is 0, not 1 — the claim fails for this smoothing
configuration. -/
theorem c5_counterexample :
    kernelWeights true 0 (fun _ => 0) = [] ∧
    (kernelWeights true 0 (fun _ => 0)).sum ≠ 1 := by
  have h : kernelOffsets true 0 (fun _ => 0) = [] := by with_unfolding_all rfl
  constructor
  · simp [kernelWeights, rawWeights, h]
  · simp [kernelWeights, rawWeights, h]

/-- C5 (amended): for every `sigma > 0` (any jitter) the normalized
weights sum to exactly 1, and for every `sigma ≠ 0` the disabled-smoothing
kernel is deterministically the single pair `(offset 0, weight 1)`.
(At `sigma = 0` the enabled kernel is empty — the counterexample — and the
disabled kernel's weight is the float `exp(-0/0) = nan`.) -/
theorem c5_amended :
    (∀ (sigma : ℚ) (jitter : ℕ → ℚ), 0 < sigma →
      (kernelWeights true sigma jitter).sum = 1) ∧
    (∀ (sigma : ℚ) (jitter : ℕ → ℚ), sigma ≠ 0 →
      kernelPairs false sigma jitter = [(0, 1)]) := by
  constructor
  · intro sigma jitter h
    rw [kernelWeights, sum_map_div]
    exact div_self (ne_of_gt (rawWeights_sum_pos sigma jitter h))
  · intro sigma jitter _
    have hw : rawWeights false sigma jitter = [1] := by
      simp [rawWeights, kernelOffsets, Real.exp_zero]
    rw [kernelPairs, kernelWeights, hw]
    simp [kernelOffsets]

theorem c5_amended_witness :
    (kernelWeights true 1 (fun _ => 0)).sum = 1 ∧
    kernelPairs false 1 (fun _ => 0) = [(0, 1)] :=
  ⟨c5_amended.1 1 (fun _ => 0) (by norm_num), c5_amended.2 1 (fun _ => 0) (by norm_num)⟩

/-- C10: for every `sigma > 0` with smoothing enabled, the offset list is
nonempty, every raw Gaussian weight is strictly positive, and therefore
the normalization denominator `weights.sum()` is strictly positive — the
division `weights /= weights.sum()` never divides by zero. -/
theorem c10_kernel_safe :
    ∀ (sigma : ℚ) (jitter : ℕ → ℚ), 0 < sigma →
      kernelOffsets true sigma jitter ≠ [] ∧
      (∀ w ∈ rawWeights true sigma jitter, 0 < w) ∧
      0 < (rawWeights true sigma jitter).sum :=
  fun sigma jitter h =>
    ⟨kernelOffsets_smooth_ne_nil sigma jitter h, rawWeights_pos true sigma jitter,
      rawWeights_sum_pos sigma jitter h⟩

theorem c10_kernel_safe_witness :
    kernelOffsets true 1 (fun _ => 0) ≠ [] ∧
    (∀ w ∈ rawWeights true 1 (fun _ => 0), 0 < w) ∧
    0 < (rawWeights true 1 (fun _ => 0)).sum :=
  c10_kernel_safe 1 (fun _ => 0) (by norm_num)

/-! ### Helper lemmas for the ratio trend (C7) -/

theorem ratioVal_fin_zero (v : FVal) : ratioVal v (FVal.fin 0) = FVal.nan := by
  cases v with
  | fin a =>
    simp only [ratioVal, fdivVal, if_pos rfl]
    split_ifs <;> rfl
  | pinf => rfl
  | ninf => rfl
  | nan => rfl

theorem zipWith_ratio_get (nums dens : List FVal) (i : ℕ) (a b : FVal)
    (h1 : nums[i]? = some a) (h2 : dens[i]? = some b) :
    (List.zipWith ratioVal nums dens)[i]? = some (ratioVal a b) := by
  induction nums generalizing dens i with
  | nil => simp at h1
  | cons x xs ih =>
    cases dens with
    | nil => simp at h2
    | cons y ys =>
      cases i with
      | zero =>
        simp at h1 h2
        subst h1; subst h2
        simp [List.zipWith_cons_cons]
      | succ j =>
        simp only [List.zipWith_cons_cons, List.getElem?_cons_succ] at h1 h2 ⊢
        exact ih ys j h1 h2

/-- C7: in the ratio trend, whenever the denominator tag's EWMA is zero at
a bucket, the ratio column holds `nan` (pandas' missing-data marker) at
that bucket — never a zero and never an error (the division and the
`replace` are total). -/
theorem c7_zero_denom_undefined :
    ∀ (nums dens : List FVal) (i : ℕ) (v : FVal),
      nums[i]? = some v → dens[i]? = some (FVal.fin 0) →
      (ratioSeries nums dens)[i]? = some FVal.nan ∧ ∀ q : ℚ, FVal.nan ≠ FVal.fin q := by
  intro nums dens i v h1 h2
  constructor
  · rw [ratioSeries, zipWith_ratio_get nums dens i v (FVal.fin 0) h1 h2, ratioVal_fin_zero]
  · intro q h
    cases h

theorem c7_zero_denom_undefined_witness :
    (ratioSeries [FVal.fin 1] [FVal.fin 0])[0]? = some FVal.nan :=
  (c7_zero_denom_undefined [FVal.fin 1] [FVal.fin 0] 0 (FVal.fin 1) rfl rfl).1

/-- C8 (amended): the day normalizer equals
`max(1, floor((tmax - tmin) / 1 day))` scaled by the fraction of
non-excluded weekdays, counting excluded weekdays distinctly; in
particular, for excluded weekdays `{5, 6}` and an index span of exactly
14 days it equals `14 - 14*2/7 = 10`. -/
theorem c8_amended :
    ∀ (tmin tmax : ℚ) (skip : List ℤ),
      day_normalizer tmin tmax skip =
        ((max 1 (qfloor ((tmax - tmin) / 86400)) : ℤ) : ℚ) *
          ((7 : ℚ) - (skip.dedup.length : ℚ)) / 7 ∧
      (tmax - tmin = 14 * 86400 → day_normalizer tmin tmax [5, 6] = 10) := by
  intro a b skip
  constructor
  · simp only [day_normalizer]
    ring
  · intro h
    have h1 : qfloor ((b - a) / 86400) = 14 := by
      rw [h]
      with_unfolding_all decide
    have h2 : ([5, 6] : List ℤ).dedup.length = 2 := by decide
    have h3 : max 1 (14 : ℤ) = 14 := by decide
    simp only [day_normalizer, h1, h3, h2]
    norm_num

theorem c8_amended_witness :
    day_normalizer 0 (14 * 86400) [5, 6] = 10 :=
  (c8_amended 0 (14 * 86400) [5, 6]).2 (by norm_num)

/-! ### Helper lemma for `top_n_tags` (C9) -/

theorem top_fold_spec :
    ∀ (extra keys : List String),
      (∀ a ∈ keys, a ∈ extra.foldl
        (fun keys x => if x ∈ keys then keys else keys ++ [x]) keys) ∧
      (∀ x ∈ extra, x ∈ extra.foldl
        (fun keys x => if x ∈ keys then keys else keys ++ [x]) keys) ∧
      ∃ suff, extra.foldl (fun keys x => if x ∈ keys then keys else keys ++ [x]) keys =
          keys ++ suff ∧ ∀ y ∈ suff, y ∈ extra ∧ ¬ y ∈ keys := by
  intro extra
  induction extra with
  | nil =>
    intro keys
    refine ⟨fun a h => h, by simp, [], by simp, by simp⟩
  | cons x xs ih =>
    intro keys
    rw [List.foldl_cons]
    by_cases hx : x ∈ keys
    · rw [if_pos hx]
      obtain ⟨ih1, ih2, suff, hs, hp⟩ := ih keys
      refine ⟨ih1, ?_, suff, hs, ?_⟩
      · intro y hy
        rcases List.mem_cons.mp hy with rfl | hy
        · exact ih1 y hx
        · exact ih2 y hy
      · intro y hy
        obtain ⟨h1, h2⟩ := hp y hy
        exact ⟨List.mem_cons_of_mem x h1, h2⟩
    · rw [if_neg hx]
      obtain ⟨ih1, ih2, suff, hs, hp⟩ := ih (keys ++ [x])
      refine ⟨?_, ?_, x :: suff, ?_, ?_⟩
      · intro a ha
        exact ih1 a (List.mem_append_left [x] ha)
      · intro y hy
        rcases List.mem_cons.mp hy with rfl | hy
        · exact ih1 y (List.mem_append_right keys (by simp))
        · exact ih2 y hy
      · rw [hs, List.append_assoc]
        rfl
      · intro y hy
        rcases List.mem_cons.mp hy with rfl | hy
        · exact ⟨List.mem_cons_self y xs, hx⟩
        · obtain ⟨h1, h2⟩ := hp y hy
          refine ⟨List.mem_cons_of_mem x h1, ?_⟩
          intro hk
          exact h2 (List.mem_append_left [x] hk)

/-- C9: for every tag-total table, every `n` and every requested
extra-tag list, `top_n_tags` returns a list containing every requested
extra tag; the result is the `n` highest-total tags followed by a suffix
consisting only of requested tags not already among those `n` — a
requested tag already in the top `n` is not appended again. -/
theorem c9_top_n_extra :
    ∀ (totals : List (String × Option ℚ)) (n : ℕ) (extra_tags : List String),
      (∀ x ∈ extra_tags, x ∈ top_n_tags totals n extra_tags) ∧
      ∃ suff, top_n_tags totals n extra_tags = topBase totals n ++ suff ∧
        ∀ y ∈ suff, y ∈ extra_tags ∧ ¬ y ∈ topBase totals n := by
  intro totals n extra
  obtain ⟨_, h2, suff, hs, hp⟩ := top_fold_spec extra (topBase totals n)
  exact ⟨h2, suff, hs, hp⟩

theorem c9_top_n_extra_witness :
    "rest" ∈ top_n_tags [("work", some 5), ("rest", some 1)] 1 ["rest"] :=
  (c9_top_n_extra [("work", some 5), ("rest", some 1)] 1 ["rest"]).1 "rest" (by simp)

end PyTagTime
